import Mathlib

/-!
Verification development for the bus1 node/handle lifecycle and ordered-queue
subsystem (src/ipc/bus1/queue.c, handle.c, user.c).

The rb-trees of the C code are embedded by their in-order traversal: a queue's
`messages` list is the in-order sequence of `bus1_queue_entry` nodes (sorted by
`seq`, ties in insertion order), `rb_next` is the next list element, the
leftmost node is the list head.  Entries are identified by `eid` (standing for
the entry's address).  `front` stores the `eid` of the entry the rcu front
pointer refers to, or `none` for NULL.  Reads through a NULL pointer are
modelled by returning `none` from the whole operation.
-/

/-- Queue entry: `bus1_queue_entry`.  `eid` models the entry's identity
(address); `seq` is the 64-bit sequence number (odd = staging). -/
structure QEntry where
  eid : Nat
  seq : Nat
deriving Repr, DecidableEq

/-- Queue: `bus1_queue`.  `messages` is the in-order traversal of the rb-tree;
`front` is the rcu front pointer (by entry identity). -/
structure Queue where
  messages : List QEntry
  front : Option Nat
deriving Repr, DecidableEq

/-- Find the linked entry with identity `i` (models following a pointer). -/
def qfind (i : Nat) : List QEntry → Option QEntry
  | [] => none
  | a :: t => if a.eid = i then some a else qfind i t

/-- RB_EMPTY_NODE is false exactly for entries currently linked in the tree. -/
def qlinkedB (q : Queue) (i : Nat) : Bool :=
  (qfind i q.messages).isSome

/-- rb_erase: remove the linked entry with identity `i`. -/
def qerase (i : Nat) : List QEntry → List QEntry
  | [] => []
  | a :: t => if a.eid = i then t else a :: qerase i t

/-- rb_next of the entry with identity `i`: its in-order successor. -/
def qnext (i : Nat) : List QEntry → Option QEntry
  | [] => none
  | a :: t => if a.eid = i then t.head? else qnext i t

/-- The descent of `bus1_queue_link`: the new entry goes left on
`entry->seq < iter->seq` and right otherwise, so in-order it lands after every
entry whose seq is ≤ its own (ties order later). -/
def qinsert (e : QEntry) : List QEntry → List QEntry
  | [] => [e]
  | a :: t => if e.seq < a.seq then e :: a :: t else a :: qinsert e t

/-- is_leftmost of the descent: the new entry takes no right branch, i.e. it
lands before the current leftmost entry (or the tree is empty). -/
def qisLeftmost (l : List QEntry) (e : QEntry) : Bool :=
  match l with
  | [] => true
  | a :: _ => decide (e.seq < a.seq)

/-- bus1_queue_link: link an unlinked entry into the sorted queue.  Returns the
new queue and the C return value (true iff the queue became readable). -/
def bus1_queue_link (q : Queue) (e : QEntry) : Queue × Bool :=
  if qlinkedB q e.eid then (q, false)  -- WARN_ON(!RB_EMPTY_NODE): bail out
  else
    let lm := qisLeftmost q.messages e
    let msgs := qinsert e q.messages
    -- if (is_leftmost): WARN_ON(queue->front); front is set only when committed
    let fr := if lm && e.seq % 2 == 0 then some e.eid else q.front
    (⟨msgs, fr⟩, lm && e.seq % 2 == 0)

/-- bus1_queue_unlink: unlink a linked entry.  When the entry is the front, the
code reads `bus1_queue_entry(rb_next(node))->seq`; if the successor is absent
that read goes through NULL, modelled as `none` (no defined result). -/
def bus1_queue_unlink (q : Queue) (e : QEntry) : Option (Queue × Bool) :=
  if ¬ qlinkedB q e.eid then some (q, false)  -- already unlinked: no-op
  else if q.front = some e.eid then
    match qnext e.eid q.messages with
    | none => none  -- rb_next = NULL; reading its seq dereferences NULL
    | some s =>
      let nd : Option QEntry := if s.seq % 2 == 1 then none else some s
      some (⟨qerase e.eid q.messages, nd.map QEntry.eid⟩,
            (e.seq % 2 == 1) && nd.any fun t => t.seq % 2 == 0)
  else
    -- node = NULL: front pointer untouched, return value is false
    some (⟨qerase e.eid q.messages, q.front⟩, false)

/-- bus1_queue_relink: change the sequence number of a linked staging entry by
erasing it and linking it again. -/
def bus1_queue_relink (q : Queue) (e : QEntry) (seq : Nat) : Queue × Bool :=
  if seq = 0 ∨ ¬ qlinkedB q e.eid ∨ e.seq % 2 = 0 then
    (q, false)  -- WARN_ON guard: nothing happens
  else
    let fr := q.front  -- remember front, cannot point to @entry
    let q1 : Queue := ⟨qerase e.eid q.messages, q.front⟩
    let p := bus1_queue_link q1 ⟨e.eid, seq⟩
    (p.1, fr.isNone && p.1.front.isSome)

/-- bus1_queue_flush: drop all entries and clear the front. -/
def bus1_queue_flush (_q : Queue) : Queue := ⟨[], none⟩

/-- bus1_queue_peek: the entry the front pointer refers to, never staging. -/
def bus1_queue_peek (q : Queue) : Option QEntry :=
  q.front.bind fun i => qfind i q.messages

/-- In-order traversal is sorted by seq (non-strictly: ties allowed). -/
def QSorted (l : List QEntry) : Prop :=
  l.Pairwise fun a b => a.seq ≤ b.seq

/-- Entry identities are unique (distinct tree nodes have distinct addresses). -/
def QNodup (l : List QEntry) : Prop :=
  (l.map QEntry.eid).Nodup

/-- The queue's front-pointer consistency: NULL or the leftmost entry with even
seq. -/
def qfrontOk (q : Queue) : Bool :=
  match q.front, q.messages.head? with
  | none, _ => true
  | some i, some e => e.eid == i && e.seq % 2 == 0
  | some _, none => false

/-- Well-formedness of a queue state. -/
def QWf (q : Queue) : Prop :=
  QSorted q.messages ∧ QNodup q.messages ∧ qfrontOk q = true

instance : DecidablePred QWf := fun q => by
  unfold QWf QSorted QNodup
  infer_instance

/-! Helper lemmas about the list embedding of the rb-tree. -/

theorem qinsert_eq_takeWhile (e : QEntry) (l : List QEntry) :
    qinsert e l =
      l.takeWhile (fun a => decide (a.seq ≤ e.seq)) ++
        e :: l.dropWhile (fun a => decide (a.seq ≤ e.seq)) := by
  induction l with
  | nil => rfl
  | cons a t ih =>
    by_cases h : e.seq < a.seq
    · have h' : ¬ a.seq ≤ e.seq := by omega
      simp [qinsert, h, List.takeWhile_cons, List.dropWhile_cons, h']
    · have h' : a.seq ≤ e.seq := by omega
      simp [qinsert, h, List.takeWhile_cons, List.dropWhile_cons, h', ih]

theorem qinsert_perm (e : QEntry) (l : List QEntry) :
    (qinsert e l).Perm (e :: l) := by
  rw [qinsert_eq_takeWhile]
  calc (l.takeWhile (fun a => decide (a.seq ≤ e.seq)) ++
          e :: l.dropWhile (fun a => decide (a.seq ≤ e.seq))).Perm
        (e :: (l.takeWhile (fun a => decide (a.seq ≤ e.seq)) ++
          l.dropWhile (fun a => decide (a.seq ≤ e.seq)))) := List.perm_middle
    _ = e :: l := by rw [List.takeWhile_append_dropWhile]

theorem qinsert_sorted {l : List QEntry} (e : QEntry) (hs : QSorted l) :
    QSorted (qinsert e l) := by
  unfold QSorted at *
  induction l with
  | nil => simp [qinsert]
  | cons a t ih =>
    rcases (List.pairwise_cons.mp hs) with ⟨ha, ht⟩
    by_cases h : e.seq < a.seq
    · simp only [qinsert, if_pos h]
      refine List.pairwise_cons.mpr ⟨?_, hs⟩
      intro b hb
      rcases List.mem_cons.mp hb with hb | hb
      · subst hb; omega
      · have := ha b hb; omega
    · simp only [qinsert, if_neg h]
      refine List.pairwise_cons.mpr ⟨?_, ih ht⟩
      intro b hb
      rcases List.mem_cons.mp ((qinsert_perm e t).mem_iff.mp hb) with hb' | hb'
      · subst hb'; omega
      · exact ha b hb'

theorem qinsert_nodup {l : List QEntry} (e : QEntry) (hn : QNodup l)
    (hf : e.eid ∉ l.map QEntry.eid) : QNodup (qinsert e l) := by
  have hp : ((qinsert e l).map QEntry.eid).Perm (e.eid :: l.map QEntry.eid) :=
    (qinsert_perm e l).map QEntry.eid
  exact hp.nodup_iff.mpr (List.nodup_cons.mpr ⟨hf, hn⟩)

theorem qinsert_head_lt {a : QEntry} {t : List QEntry} (e : QEntry)
    (h : e.seq < a.seq) : (qinsert e (a :: t)).head? = some e := by
  simp [qinsert, h]

theorem qinsert_head_ge {a : QEntry} {t : List QEntry} (e : QEntry)
    (h : ¬ e.seq < a.seq) : (qinsert e (a :: t)).head? = some a := by
  simp [qinsert, h]

theorem qfind_mem {i : Nat} {l : List QEntry} {e : QEntry}
    (h : qfind i l = some e) : e ∈ l ∧ e.eid = i := by
  induction l with
  | nil => simp [qfind] at h
  | cons a t ih =>
    by_cases ha : a.eid = i
    · simp [qfind, ha] at h
      subst h
      exact ⟨List.mem_cons_self a t, ha⟩
    · simp [qfind, ha] at h
      rcases ih h with ⟨hm, he⟩
      exact ⟨List.mem_cons_of_mem a hm, he⟩

theorem qfind_isSome_of_mem {i : Nat} {l : List QEntry} {e : QEntry}
    (he : e ∈ l) (hi : e.eid = i) : (qfind i l).isSome := by
  induction l with
  | nil => simp at he
  | cons a t ih =>
    rcases List.mem_cons.mp he with he' | he'
    · subst he'; simp [qfind, hi]
    · by_cases ha : a.eid = i
      · simp [qfind, ha]
      · simpa [qfind, ha] using ih he'

theorem qerase_sublist (i : Nat) (l : List QEntry) : (qerase i l).Sublist l := by
  induction l with
  | nil => simp [qerase]
  | cons a t ih =>
    by_cases ha : a.eid = i
    · simp only [qerase, if_pos ha]
      exact t.sublist_cons_self a
    · simpa [qerase, ha] using ih.cons₂ a

theorem qerase_sorted {l : List QEntry} (i : Nat) (hs : QSorted l) :
    QSorted (qerase i l) := hs.sublist (qerase_sublist i l)

theorem qerase_nodup {l : List QEntry} (i : Nat) (hn : QNodup l) :
    QNodup (qerase i l) := hn.sublist ((qerase_sublist i l).map QEntry.eid)

theorem qerase_not_mem {l : List QEntry} (i : Nat) (hn : QNodup l) :
    i ∉ (qerase i l).map QEntry.eid := by
  induction l with
  | nil => simp [qerase]
  | cons a t ih =>
    rcases List.nodup_cons.mp hn with ⟨ha, ht⟩
    by_cases h : a.eid = i
    · subst h
      simpa [qerase] using ha
    · simp only [qerase, if_neg h, List.map_cons, List.mem_cons]
      push_neg
      exact ⟨fun hc => h hc.symm, ih ht⟩

theorem qerase_head_of_ne {a : QEntry} {t : List QEntry} (i : Nat)
    (h : a.eid ≠ i) : (qerase i (a :: t)).head? = some a := by
  simp [qerase, h]

theorem qnodup_eq_of_eid {l : List QEntry} (hn : QNodup l) {a b : QEntry}
    (ha : a ∈ l) (hb : b ∈ l) (he : a.eid = b.eid) : a = b := by
  induction l with
  | nil => simp at ha
  | cons x t ih =>
    rcases List.nodup_cons.mp hn with ⟨hx, ht⟩
    rcases List.mem_cons.mp ha with ha' | ha' <;>
      rcases List.mem_cons.mp hb with hb' | hb'
    · rw [ha', hb']
    · subst ha'
      exact absurd (he ▸ List.mem_map_of_mem QEntry.eid hb') hx
    · subst hb'
      exact absurd (he ▸ List.mem_map_of_mem QEntry.eid ha') hx
    · exact ih ht ha' hb'

theorem qfind_insert (i s : Nat) {l : List QEntry}
    (hf : i ∉ l.map QEntry.eid) :
    qfind i (qinsert ⟨i, s⟩ l) = some ⟨i, s⟩ := by
  induction l with
  | nil => simp [qinsert, qfind]
  | cons a t ih =>
    simp only [List.map_cons, List.mem_cons] at hf
    push_neg at hf
    by_cases h : s < a.seq
    · simp [qinsert, h, qfind]
    · simp only [qinsert, if_neg h]
      have : a.eid ≠ i := fun hc => hf.1 hc.symm
      simp [qfind, this, ih hf.2]

theorem qfind_eq_none_iff {i : Nat} {l : List QEntry} :
    qfind i l = none ↔ i ∉ l.map QEntry.eid := by
  constructor
  · intro h hmem
    rcases List.mem_map.mp hmem with ⟨x, hx, hxe⟩
    have := qfind_isSome_of_mem hx hxe
    rw [h] at this
    simp at this
  · intro h
    cases hf : qfind i l with
    | none => rfl
    | some e =>
      rcases qfind_mem hf with ⟨hm, he⟩
      exact absurd (he ▸ List.mem_map_of_mem QEntry.eid hm) h

/-! Operations as a state machine, to express reachability of queue states. -/

/-- One queue operation, as invoked by a caller: entries are designated by
identity, the linked entry itself is what the queue currently stores. -/
inductive QOp where
  | link (e : QEntry)
  | unlink (i : Nat)
  | relink (i : Nat) (seq : Nat)
  | flush
deriving Repr, DecidableEq

/-- Apply one operation.  `none` means the operation performed an undefined
memory access (the NULL dereference of `bus1_queue_unlink`). -/
def qstep (q : Queue) : QOp → Option Queue
  | .link e => some (bus1_queue_link q e).1
  | .unlink i =>
    match qfind i q.messages with
    | none => some q
    | some e => (bus1_queue_unlink q e).map Prod.fst
  | .relink i s =>
    match qfind i q.messages with
    | none => some q
    | some e => some (bus1_queue_relink q e s).1
  | .flush => some (bus1_queue_flush q)

/-- All states reachable from the empty queue by arbitrary operations. -/
inductive QReach : Queue → Prop where
  | empty : QReach ⟨[], none⟩
  | step (q : Queue) (op : QOp) (q' : Queue) :
      QReach q → qstep q op = some q' → QReach q'

/-- The caller contract flagged by `WARN_ON(queue->front)` in
`bus1_queue_link`: a staging entry must not be inserted in front of an
established front pointer (ready entries are never ordered behind new ones). -/
def qlinkGuard (q : Queue) (e : QEntry) : Bool :=
  !(qisLeftmost q.messages e && e.seq % 2 == 1 && q.front.isSome)

/-- Guard of one operation: the `bus1_queue_link` contract, applied also to the
re-insertion that `bus1_queue_relink` performs internally. -/
def qguardOk (q : Queue) : QOp → Bool
  | .link e => qlinkGuard q e
  | .relink i s =>
    match qfind i q.messages with
    | none => true
    | some e =>
      if s = 0 ∨ e.seq % 2 = 0 then true
      else qlinkGuard ⟨qerase i q.messages, q.front⟩ ⟨i, s⟩
  | _ => true

/-- States reachable from the empty queue by operations that respect the
link contract (no staging entry inserted before a non-NULL front). -/
inductive QReachG : Queue → Prop where
  | empty : QReachG ⟨[], none⟩
  | step (q : Queue) (op : QOp) (q' : Queue) :
      QReachG q → qguardOk q op = true → qstep q op = some q' → QReachG q'

/-! Preservation of well-formedness. -/

theorem bus1_queue_link_wf {q : Queue} {e : QEntry} (hwf : QWf q)
    (hg : qlinkGuard q e = true) : QWf (bus1_queue_link q e).1 := by
  obtain ⟨hs, hn, hf⟩ := hwf
  by_cases hl : qlinkedB q e.eid
  · simpa [bus1_queue_link, hl] using ⟨hs, hn, hf⟩
  · have hfresh : e.eid ∉ q.messages.map QEntry.eid := by
      intro hmem
      rcases List.mem_map.mp hmem with ⟨x, hx, hxe⟩
      exact hl (qfind_isSome_of_mem hx hxe)
    refine ⟨?_, ?_, ?_⟩
    · simpa [bus1_queue_link, hl] using qinsert_sorted e hs
    · simpa [bus1_queue_link, hl] using qinsert_nodup e hn hfresh
    · rcases q with ⟨msgs, fr⟩
      cases msgs with
      | nil =>
        cases fr with
        | none =>
          rcases Nat.mod_two_eq_zero_or_one e.seq with he | he <;>
            simp [bus1_queue_link, qlinkedB, qfind, qisLeftmost, qinsert,
              qfrontOk, he]
        | some i => simp [qfrontOk] at hf
      | cons a t =>
        by_cases hlt : e.seq < a.seq
        · rcases Nat.mod_two_eq_zero_or_one e.seq with he | he
          · simp [bus1_queue_link, hl, qisLeftmost, hlt, qinsert, qfrontOk, he]
          · have hfr : fr = none := by
              cases fr with
              | none => rfl
              | some i => simp [qlinkGuard, qisLeftmost, hlt, he] at hg
            subst hfr
            simp [bus1_queue_link, hl, qisLeftmost, hlt, qinsert, qfrontOk, he]
        · have hd : (qinsert e (a :: t)).head? = some a := qinsert_head_ge e hlt
          simp only [bus1_queue_link, hl, if_false, Bool.false_and,
            qisLeftmost, decide_eq_true_eq]
          cases fr with
          | none => simp [qfrontOk, hlt, hd]
          | some i =>
            simp only [qfrontOk, List.head?_cons] at hf
            simp [qfrontOk, hlt, hd, hf]

theorem bus1_queue_unlink_spec {q : Queue} {e : QEntry} (hwf : QWf q)
    (hmem : e ∈ q.messages)
    (hsucc : q.front = some e.eid → qnext e.eid q.messages ≠ none) :
    ∃ p : Queue × Bool, bus1_queue_unlink q e = some p ∧
      p.1.messages = qerase e.eid q.messages ∧
      p.2 = false ∧
      (∀ s, q.front = some e.eid → qnext e.eid q.messages = some s →
        p.1.front = if s.seq % 2 = 0 then some s.eid else none) ∧
      (q.front ≠ some e.eid → p.1.front = q.front) ∧
      QWf p.1 := by
  rcases q with ⟨msgs, fr⟩
  obtain ⟨hs, hn, hf⟩ := hwf
  simp only at hs hn hf hmem hsucc ⊢
  have hl : qlinkedB ⟨msgs, fr⟩ e.eid = true := qfind_isSome_of_mem hmem rfl
  by_cases hfr : fr = some e.eid
  · -- the entry is the front; by the front invariant it is the head
    subst hfr
    cases msgs with
    | nil => simp at hmem
    | cons a t =>
      simp only [qfrontOk, List.head?_cons, Bool.and_eq_true, beq_iff_eq] at hf
      obtain ⟨hae, haev⟩ := hf
      have hea : a = e :=
        qnodup_eq_of_eid hn (List.mem_cons_self a t) hmem hae
      subst hea
      cases t with
      | nil =>
        exact absurd (by simp [qnext]) (hsucc rfl)
      | cons s t' =>
        have hqn : qnext a.eid (a :: s :: t') = some s := by simp [qnext]
        have hqe : qerase a.eid (a :: s :: t') = s :: t' := by simp [qerase]
        have hst : QSorted (s :: t') := (List.pairwise_cons.mp hs).2
        have hnt : QNodup (s :: t') := (List.nodup_cons.mp hn).2
        rcases Nat.mod_two_eq_zero_or_one s.seq with he' | he'
        · refine ⟨(⟨s :: t', some s.eid⟩, false), ?_, ?_, rfl, ?_, ?_, ?_⟩
          · simp [bus1_queue_unlink, hl, qnext, qerase, he', haev]
          · simp [hqe]
          · intro s' _ hs'
            rw [hqn] at hs'
            cases hs'
            simp [he']
          · intro hc; exact absurd rfl hc
          · exact ⟨hst, hnt, by simp [qfrontOk, he']⟩
        · refine ⟨(⟨s :: t', none⟩, false), ?_, ?_, rfl, ?_, ?_, ?_⟩
          · simp [bus1_queue_unlink, hl, qnext, qerase, he', haev]
          · simp [hqe]
          · intro s' _ hs'
            rw [hqn] at hs'
            cases hs'
            simp [he']
          · intro hc; exact absurd rfl hc
          · exact ⟨hst, hnt, by simp [qfrontOk]⟩
  · -- the entry is not the front
    refine ⟨(⟨qerase e.eid msgs, fr⟩, false), ?_, rfl, rfl, ?_, ?_, ?_⟩
    · simp [bus1_queue_unlink, hl, hfr]
    · intro s hc; exact absurd hc hfr
    · intro _; rfl
    · refine ⟨qerase_sorted _ hs, qerase_nodup _ hn, ?_⟩
      cases hfrc : fr with
      | none => simp [qfrontOk]
      | some i =>
        subst hfrc
        cases msgs with
        | nil => simp [qfrontOk] at hf
        | cons a t =>
          simp only [qfrontOk, List.head?_cons, Bool.and_eq_true,
            beq_iff_eq] at hf
          have hne : a.eid ≠ e.eid := by
            intro hc
            exact hfr (by rw [← hf.1, hc])
          have hh := qerase_head_of_ne (a := a) (t := t) e.eid hne
          simp [qfrontOk, hh, hf.1, hf.2]

theorem bus1_queue_relink_wf {q : Queue} {e : QEntry} {s : Nat} (hwf : QWf q)
    (hmem : e ∈ q.messages)
    (hg : ¬ (s = 0 ∨ e.seq % 2 = 0) →
      qlinkGuard ⟨qerase e.eid q.messages, q.front⟩ ⟨e.eid, s⟩ = true) :
    QWf (bus1_queue_relink q e s).1 := by
  by_cases hb : s = 0 ∨ ¬ qlinkedB q e.eid ∨ e.seq % 2 = 0
  · simp only [bus1_queue_relink, if_pos hb]
    exact hwf
  · push_neg at hb
    obtain ⟨hs0, _, hodd⟩ := hb
    obtain ⟨hso, hn, hf⟩ := hwf
    have hq1 : QWf ⟨qerase e.eid q.messages, q.front⟩ := by
      refine ⟨qerase_sorted _ hso, qerase_nodup _ hn, ?_⟩
      rcases q with ⟨msgs, fr⟩
      cases hfrc : fr with
      | none => simp [qfrontOk]
      | some i =>
        subst hfrc
        cases msgs with
        | nil => simp [qfrontOk] at hf
        | cons a t =>
          simp only [qfrontOk, List.head?_cons, Bool.and_eq_true,
            beq_iff_eq] at hf
          have hne : a.eid ≠ e.eid := by
            intro hc
            have hea : a = e :=
              qnodup_eq_of_eid hn (List.mem_cons_self a t) hmem hc
            rw [hea] at hf
            omega
          have hh := qerase_head_of_ne (a := a) (t := t) e.eid hne
          simp [qfrontOk, hh, hf.1, hf.2]
    have hlw := bus1_queue_link_wf hq1 (hg (by push_neg; exact ⟨hs0, hodd⟩))
    have hne : ¬ (s = 0 ∨ ¬ qlinkedB q e.eid ∨ e.seq % 2 = 0) := by
      push_neg
      exact ⟨hs0, qfind_isSome_of_mem hmem rfl, hodd⟩
    simp only [bus1_queue_relink, if_neg hne]
    exact hlw

theorem qstepG_wf {q q' : Queue} {op : QOp} (hwf : QWf q)
    (hg : qguardOk q op = true) (hs : qstep q op = some q') : QWf q' := by
  cases op with
  | link e =>
    simp only [qstep, Option.some_inj] at hs
    subst hs
    exact bus1_queue_link_wf hwf (by simpa [qguardOk] using hg)
  | unlink i =>
    simp only [qstep] at hs
    cases hfind : qfind i q.messages with
    | none =>
      rw [hfind] at hs
      simp only [Option.some_inj] at hs
      subst hs
      exact hwf
    | some e =>
      rw [hfind] at hs
      rcases qfind_mem hfind with ⟨hm, he⟩
      have hsucc : q.front = some e.eid → qnext e.eid q.messages ≠ none := by
        intro hfr hqn
        have hl : qlinkedB q e.eid = true := qfind_isSome_of_mem hm rfl
        simp [bus1_queue_unlink, hl, hfr, hqn] at hs
      rcases bus1_queue_unlink_spec ⟨hwf.1, hwf.2.1, hwf.2.2⟩ hm hsucc with
        ⟨p, hp, _, _, _, _, hpw⟩
      have hs' : Option.map Prod.fst (bus1_queue_unlink q e) = some q' := hs
      rw [hp] at hs'
      simp only [Option.map_some', Option.some_inj] at hs'
      subst hs'
      exact hpw
  | relink i s =>
    simp only [qstep] at hs
    cases hfind : qfind i q.messages with
    | none =>
      rw [hfind] at hs
      simp only [Option.some_inj] at hs
      subst hs
      exact hwf
    | some e =>
      rw [hfind] at hs
      simp only [Option.some_inj] at hs
      subst hs
      rcases qfind_mem hfind with ⟨hm, he⟩
      subst he
      refine bus1_queue_relink_wf hwf hm ?_
      intro hng
      simp only [qguardOk, hfind] at hg
      rw [if_neg (by tauto)] at hg
      exact hg
  | flush =>
    simp only [qstep, Option.some_inj] at hs
    subst hs
    exact ⟨List.Pairwise.nil, List.nodup_nil, rfl⟩

theorem qreachG_wf {q : Queue} (h : QReachG q) : QWf q := by
  induction h with
  | empty => exact ⟨List.Pairwise.nil, List.nodup_nil, rfl⟩
  | step q op q' hr hg hs ih => exact qstepG_wf ih hg hs

theorem qisLeftmost_head {l : List QEntry} {x : QEntry}
    (hfresh : x.eid ∉ l.map QEntry.eid) :
    qisLeftmost l x = true ↔ (qinsert x l).head? = some x := by
  cases l with
  | nil => simp [qisLeftmost, qinsert]
  | cons a t =>
    by_cases hlt : x.seq < a.seq
    · simp [qisLeftmost, hlt, qinsert_head_lt x hlt]
    · have hne : a ≠ x := by
        intro hc
        apply hfresh
        rw [← hc]
        exact List.mem_map_of_mem QEntry.eid (List.mem_cons_self a t)
      simp [qisLeftmost, hlt, qinsert_head_ge x hlt, hne]

/-- C5: for every queue and every unlinked entry `e`, `bus1_queue_link`
inserts `e` in seq order with ties placed later (after every entry whose seq is
≤ `e.seq`, before every strictly larger one), keeps the list sorted, returns
true iff `e` landed leftmost with even seq, and in exactly that case sets the
front pointer to `e`. -/
theorem claim_C5 (q : Queue) (e : QEntry) (hs : QSorted q.messages)
    (hfresh : e.eid ∉ q.messages.map QEntry.eid) :
    (bus1_queue_link q e).1.messages =
      q.messages.takeWhile (fun a => decide (a.seq ≤ e.seq)) ++
        e :: q.messages.dropWhile (fun a => decide (a.seq ≤ e.seq)) ∧
    QSorted (bus1_queue_link q e).1.messages ∧
    ((bus1_queue_link q e).2 = true ↔
      (bus1_queue_link q e).1.messages.head? = some e ∧ e.seq % 2 = 0) ∧
    ((bus1_queue_link q e).1.messages.head? = some e ∧ e.seq % 2 = 0 →
      (bus1_queue_link q e).1.front = some e.eid) := by
  have hl : qlinkedB q e.eid = false := by
    simp [qlinkedB, qfind_eq_none_iff.mpr hfresh]
  have hlm := qisLeftmost_head (l := q.messages) (x := e) hfresh
  simp only [bus1_queue_link, hl, Bool.false_eq_true, if_false]
  refine ⟨qinsert_eq_takeWhile e q.messages, qinsert_sorted e hs, ?_, ?_⟩
  · rw [Bool.and_eq_true, hlm]
    simp
  · rintro ⟨hh, he⟩
    rw [if_pos]
    rw [Bool.and_eq_true, hlm]
    exact ⟨hh, by simpa using he⟩

/-- C5 witness: linking a committed entry into the empty queue lands leftmost,
sets the front, and reports the queue readable. -/
theorem claim_C5_witness :
    (bus1_queue_link ⟨[], none⟩ ⟨1, 4⟩).1.messages = [⟨1, 4⟩] ∧
    (bus1_queue_link ⟨[], none⟩ ⟨1, 4⟩).2 = true ∧
    (bus1_queue_link ⟨[], none⟩ ⟨1, 4⟩).1.front = some 1 := by
  have h := claim_C5 ⟨[], none⟩ ⟨1, 4⟩ List.Pairwise.nil (by decide)
  refine ⟨by simpa using h.1, h.2.2.1.mpr ⟨?_, by decide⟩, h.2.2.2 ⟨?_, by decide⟩⟩
  · rw [h.1]; decide
  · rw [h.1]; decide

/-- C3 (amended): for every well-formed queue and linked entry `e` whose
successor exists whenever `e` is the front, Unlink removes `e`; if `e` was the
front, the front advances to the successor only if it is committed and is
cleared otherwise; and Unlink always returns false — the front pointer never
refers to a staging entry, so the advertised became-readable case never
occurs. -/
theorem claim_C3 (q : Queue) (e : QEntry) (hwf : QWf q)
    (hmem : e ∈ q.messages)
    (hsucc : q.front = some e.eid → qnext e.eid q.messages ≠ none) :
    ∃ p : Queue × Bool, bus1_queue_unlink q e = some p ∧
      p.1.messages = qerase e.eid q.messages ∧
      p.2 = false ∧
      (∀ s, q.front = some e.eid → qnext e.eid q.messages = some s →
        p.1.front = if s.seq % 2 = 0 then some s.eid else none) ∧
      (q.front ≠ some e.eid → p.1.front = q.front) ∧
      QWf p.1 :=
  bus1_queue_unlink_spec hwf hmem hsucc

/-- C3 witness: unlinking the committed front of a two-entry queue advances
the front to the committed successor and returns false. -/
theorem claim_C3_witness :
    bus1_queue_unlink ⟨[⟨1, 2⟩, ⟨2, 4⟩], some 1⟩ ⟨1, 2⟩ =
      some (⟨[⟨2, 4⟩], some 2⟩, false) := by
  rcases claim_C3 ⟨[⟨1, 2⟩, ⟨2, 4⟩], some 1⟩ ⟨1, 2⟩ (by decide) (by decide)
      (fun _ => by decide) with ⟨p, hp, hmsg, hret, hadv, -, -⟩
  rw [hp]
  have hf := hadv ⟨2, 4⟩ rfl (by decide)
  rcases p with ⟨⟨pm, pf⟩, pr⟩
  simp only at hmsg hret hf
  subst hret
  norm_num at hf
  subst hf
  have : pm = [⟨2, 4⟩] := by simpa [qerase] using hmsg
  subst this
  rfl

/-- C3 counterexample: in the well-formed queue holding a staging entry at
seq 3 (the blocking leftmost) and a committed entry at seq 4, unlinking the
staging entry satisfies the claim's premise (blocking staging leftmost removed,
next entry committed), yet the code returns false and leaves the front NULL,
so the queue did not become readable. -/
theorem claim_C3_counterexample :
    QWf ⟨[⟨1, 3⟩, ⟨2, 4⟩], none⟩ ∧
    (⟨[⟨1, 3⟩, ⟨2, 4⟩], none⟩ : Queue).messages.head? = some ⟨1, 3⟩ ∧
    (3 : Nat) % 2 = 1 ∧
    qnext 1 [⟨1, 3⟩, ⟨2, 4⟩] = some ⟨2, 4⟩ ∧
    (4 : Nat) % 2 = 0 ∧
    bus1_queue_unlink ⟨[⟨1, 3⟩, ⟨2, 4⟩], none⟩ ⟨1, 3⟩ =
      some (⟨[⟨2, 4⟩], none⟩, false) := by
  decide

/-- C4 (amended): every queue state reachable from the empty queue by Link,
Unlink, Relink and Flush operations that respect the link contract (no staging
entry inserted before a non-NULL front — the situation `bus1_queue_link`
flags with `WARN_ON(queue->front)`) satisfies: the front pointer is NULL xor
it refers to the leftmost entry and that entry's seq is even; in particular,
whenever the leftmost entry has odd seq, the front is NULL. -/
theorem claim_C4 {q : Queue} (h : QReachG q) :
    Xor' (q.front = none)
      (∃ e, q.messages.head? = some e ∧ q.front = some e.eid ∧
        e.seq % 2 = 0) ∧
    (∀ e, q.messages.head? = some e → e.seq % 2 = 1 → q.front = none) := by
  have hf := (qreachG_wf h).2.2
  rcases q with ⟨msgs, fr⟩
  cases fr with
  | none =>
    refine ⟨Or.inl ⟨rfl, ?_⟩, fun _ _ _ => rfl⟩
    rintro ⟨e, he, hfe, hev⟩
    simp at hfe
  | some i =>
    cases msgs with
    | nil => simp [qfrontOk] at hf
    | cons a t =>
      simp only [qfrontOk, List.head?_cons, Bool.and_eq_true, beq_iff_eq] at hf
      refine ⟨Or.inr ⟨⟨a, rfl, by rw [hf.1], hf.2⟩, by simp⟩, ?_⟩
      intro e he hodd
      simp only [List.head?_cons, Option.some_inj] at he
      subst he
      have := hf.2
      omega

/-- C4 witness: the queue reached by linking a single committed entry has its
front on that leftmost even entry. -/
theorem claim_C4_witness :
    Xor' ((⟨[⟨1, 4⟩], some 1⟩ : Queue).front = none)
      (∃ e, (⟨[⟨1, 4⟩], some 1⟩ : Queue).messages.head? = some e ∧
        (⟨[⟨1, 4⟩], some 1⟩ : Queue).front = some e.eid ∧ e.seq % 2 = 0) ∧
    (∀ e, (⟨[⟨1, 4⟩], some 1⟩ : Queue).messages.head? = some e →
      e.seq % 2 = 1 → (⟨[⟨1, 4⟩], some 1⟩ : Queue).front = none) :=
  claim_C4 (QReachG.step ⟨[], none⟩ (.link ⟨1, 4⟩) ⟨[⟨1, 4⟩], some 1⟩
    QReachG.empty (by decide) (by decide))

/-- C4 counterexample: from the empty queue, Link(seq 4) then Link(seq 1) is a
sequence of queue operations (the second triggers the code's WARN_ON) that
reaches a state whose leftmost entry has odd seq while the front is non-NULL
and refers to a different entry — the claimed xor invariant fails. -/
theorem claim_C4_counterexample :
    QReach ⟨[⟨2, 1⟩, ⟨1, 4⟩], some 1⟩ ∧
    ¬ (Xor' ((⟨[⟨2, 1⟩, ⟨1, 4⟩], some 1⟩ : Queue).front = none)
        (∃ e, (⟨[⟨2, 1⟩, ⟨1, 4⟩], some 1⟩ : Queue).messages.head? = some e ∧
          (⟨[⟨2, 1⟩, ⟨1, 4⟩], some 1⟩ : Queue).front = some e.eid ∧
          e.seq % 2 = 0)) := by
  constructor
  · exact QReach.step ⟨[⟨1, 4⟩], some 1⟩ (.link ⟨2, 1⟩)
      ⟨[⟨2, 1⟩, ⟨1, 4⟩], some 1⟩
      (QReach.step ⟨[], none⟩ (.link ⟨1, 4⟩) ⟨[⟨1, 4⟩], some 1⟩
        QReach.empty (by decide))
      (by decide)
  · rintro (⟨h1, -⟩ | ⟨⟨e, he, hfe, -⟩, -⟩)
    · simp at h1
    · simp only [List.head?_cons, Option.some_inj] at he
      subst he
      exact absurd hfe (by decide)

/-- C6: for every well-formed queue and linked staging entry, Relink with a
nonzero sequence removes the entry, re-links it under the new sequence, and
returns true iff it exposed a committed front where there was none before;
concretely, with a staging entry at seq 3 and an entry at seq 5 queued, Peek
returns NULL, and relinking 3 → 4 makes the seq-4 entry the front, makes Peek
return it, and reports the queue readable. -/
theorem claim_C6 :
    (∀ (q : Queue) (e : QEntry) (s : Nat), QWf q → e ∈ q.messages →
      e.seq % 2 = 1 → s ≠ 0 →
      qfind e.eid (bus1_queue_relink q e s).1.messages = some ⟨e.eid, s⟩ ∧
      ((bus1_queue_relink q e s).2 = true ↔
        q.front = none ∧ (bus1_queue_relink q e s).1.front ≠ none) ∧
      ((bus1_queue_relink q e s).2 = true →
        ∃ f, (bus1_queue_relink q e s).1.messages.head? = some f ∧
          (bus1_queue_relink q e s).1.front = some f.eid ∧
          f.seq % 2 = 0)) ∧
    (bus1_queue_peek ⟨[⟨1, 3⟩, ⟨2, 5⟩], none⟩ = none ∧
      bus1_queue_relink ⟨[⟨1, 3⟩, ⟨2, 5⟩], none⟩ ⟨1, 3⟩ 4 =
        (⟨[⟨1, 4⟩, ⟨2, 5⟩], some 1⟩, true) ∧
      bus1_queue_peek ⟨[⟨1, 4⟩, ⟨2, 5⟩], some 1⟩ = some ⟨1, 4⟩) := by
  constructor
  · intro q e s hwf hmem hodd hs0
    have hne : ¬ (s = 0 ∨ ¬ qlinkedB q e.eid ∨ e.seq % 2 = 0) := by
      push_neg
      exact ⟨hs0, qfind_isSome_of_mem hmem rfl, by omega⟩
    have hfresh : e.eid ∉ (qerase e.eid q.messages).map QEntry.eid :=
      qerase_not_mem e.eid hwf.2.1
    have hl1 : qlinkedB ⟨qerase e.eid q.messages, q.front⟩ e.eid = false := by
      simp [qlinkedB, qfind_eq_none_iff.mpr hfresh]
    simp only [bus1_queue_relink, if_neg hne]
    simp only [bus1_queue_link, hl1, Bool.false_eq_true, if_false]
    refine ⟨qfind_insert e.eid s hfresh, ?_, ?_⟩
    · rw [Bool.and_eq_true, Option.isNone_iff_eq_none,
        Option.isSome_iff_ne_none]
    · intro htrue
      rw [Bool.and_eq_true, Option.isNone_iff_eq_none,
        Option.isSome_iff_ne_none] at htrue
      obtain ⟨hq0, hne'⟩ := htrue
      by_cases hc : qisLeftmost (qerase e.eid q.messages) ⟨e.eid, s⟩ &&
          s % 2 == 0
      · refine ⟨⟨e.eid, s⟩, ?_, ?_, ?_⟩
        · rw [Bool.and_eq_true] at hc
          exact (qisLeftmost_head (x := ⟨e.eid, s⟩) hfresh).mp hc.1
        · simp only [hc, if_true]
        · rw [Bool.and_eq_true, beq_iff_eq] at hc
          exact hc.2
      · rw [Bool.not_eq_true] at hc
        simp only [hc, Bool.false_eq_true, if_false] at hne'
        exact absurd hq0 hne'
  · refine ⟨by decide, by decide, by decide⟩

/-- C6 witness: the general relink law instantiated at the scenario queue,
relinking the staging entry from seq 3 to seq 4. -/
theorem claim_C6_witness :
    qfind 1 (bus1_queue_relink ⟨[⟨1, 3⟩, ⟨2, 5⟩], none⟩ ⟨1, 3⟩ 4).1.messages =
      some ⟨1, 4⟩ ∧
    (bus1_queue_relink ⟨[⟨1, 3⟩, ⟨2, 5⟩], none⟩ ⟨1, 3⟩ 4).2 = true := by
  have h := claim_C6.1 ⟨[⟨1, 3⟩, ⟨2, 5⟩], none⟩ ⟨1, 3⟩ 4 (by decide)
    (by decide) (by decide) (by decide)
  refine ⟨h.1, h.2.1.mpr ⟨rfl, by decide⟩⟩

/-- C10: unlinking the front entry when it is the sole entry of the tree makes
`bus1_queue_unlink` read the seq field of the absent successor —
`bus1_queue_entry(rb_next(node))` is NULL — so the operation has no defined
result, refuting the claim that this read is always well-defined.  The input
state is well-formed (a single committed front entry, as after any normal
single-message delivery). -/
theorem claim_C10 :
    QWf ⟨[⟨1, 2⟩], some 1⟩ ∧
    bus1_queue_unlink ⟨[⟨1, 2⟩], some 1⟩ ⟨1, 2⟩ = none := by
  decide

/-!
Handle model (src/ipc/bus1/handle.c).

A `Handle` carries the fields of `struct bus1_handle` that the claims refer
to: the referenced node (by identity), the local id, the node's destruction
timestamp as observable through the seqcount-protected read, the object
refcount `ref`, and the two logical counters `n_inflight` / `n_user`.
`isOwner` models the pointer-equality test `handle == &handle->node->owner`;
`holderSet` models whether the rcu holder back-pointer is non-NULL.
-/

/-- BUS1_HANDLE_INVALID: the all-ones 64-bit sentinel id. -/
def BUS1_HANDLE_INVALID : Nat := 2 ^ 64 - 1

/-- Modelled from the spec: the MANAGED id flag (uapi header not in the
sources).  Ids are assigned as `(counter << 2) | BUS1_NODE_FLAG_MANAGED`, so
the flag lives in the two low id bits. -/
def BUS1_NODE_FLAG_MANAGED : Nat := 2

/-- Handle: `struct bus1_handle` together with the node timestamp it reads. -/
structure Handle where
  node : Nat
  id : Nat
  nodeTs : Nat
  ref : Nat
  n_inflight : Int
  n_user : Int
  isOwner : Bool
  holderSet : Bool
deriving Repr, DecidableEq

/-- bus1_handle_is_public: private handles have `n_inflight == -1`. -/
def bus1_handle_is_public (h : Handle) : Bool :=
  decide (0 ≤ h.n_inflight)

/-- bus1_handle_acquire: acquire an inflight reference.  Fails (NULL) when the
counter is 0, except for owner handles, which always succeed. -/
def bus1_handle_acquire (h : Handle) : Option Handle :=
  if ¬ bus1_handle_is_public h then none  -- WARN_ON(!public)
  else if h.n_inflight ≠ 0 then some {h with n_inflight := h.n_inflight + 1}
  else if h.isOwner then some {h with n_inflight := h.n_inflight + 1}
  else none

/-- bus1_handle_release (and bus1_handle_release_pinned): drop one inflight
reference.  The fast path and the locked last-release slow path both decrement
the counter by one; the tree/list unlinking of the slow path is modelled at
the peer level where a claim needs it. -/
def bus1_handle_release (h : Handle) : Handle :=
  if ¬ bus1_handle_is_public h then h  -- WARN_ON(!public): no-op
  else {h with n_inflight := h.n_inflight - 1}

/-- bus1_handle_get_inorder_id: report the id, or BUS1_HANDLE_INVALID when the
node's destruction (even, nonzero timestamp) is ordered at or before the
transaction timestamp. -/
def bus1_handle_get_inorder_id (h : Handle) (timestamp : Nat) : Nat :=
  let ts := h.nodeTs
  if 0 < ts ∧ ts % 2 = 0 ∧ ts ≤ timestamp then BUS1_HANDLE_INVALID
  else h.id

/-- bus1_handle_release_to_inflight: convert the caller's inflight reference
into a user reference.  If the id is already invalid, or a user reference
already existed (the increment does not return 1), the inflight reference is
released instead of being kept as the user references' backing reference. -/
def bus1_handle_release_to_inflight (h : Handle) (timestamp : Nat) :
    Nat × Handle :=
  let ts := bus1_handle_get_inorder_id h timestamp
  if ts = BUS1_HANDLE_INVALID then (ts, bus1_handle_release h)
  else
    let h1 := {h with n_user := h.n_user + 1}
    if h1.n_user ≠ 1 then (ts, bus1_handle_release h1) else (ts, h1)

/-- bus1_handle_inflight_commit: walk the batch, turning every pinned handle
into its reported id (NULL slots report BUS1_HANDLE_INVALID). -/
def bus1_handle_inflight_commit (batch : List (Option Handle)) (seq : Nat) :
    List (Nat × Option Handle) :=
  batch.map fun o =>
    match o with
    | some h =>
      let r := bus1_handle_release_to_inflight h seq
      (r.1, some r.2)
    | none => (BUS1_HANDLE_INVALID, none)

theorem release_to_inflight_fst (h : Handle) (seq : Nat) :
    (bus1_handle_release_to_inflight h seq).1 =
      bus1_handle_get_inorder_id h seq := by
  by_cases hc : bus1_handle_get_inorder_id h seq = BUS1_HANDLE_INVALID <;>
    by_cases hu : h.n_user + 1 ≠ 1 <;>
    simp [bus1_handle_release_to_inflight, hc, hu]

/-- C1: after committing an inflight at transaction sequence `seq`, every
batch entry holding a handle (installed, so its id is not INVALID) whose node
destruction timestamp is `ts` reports BUS1_HANDLE_INVALID iff `ts` is even,
nonzero and `ts ≤ seq`, and reports the handle's installed id otherwise. -/
theorem claim_C1 (batch : List (Option Handle)) (seq k : Nat) (h : Handle)
    (hk : batch.get? k = some (some h))
    (hid : h.id ≠ BUS1_HANDLE_INVALID) :
    (((bus1_handle_inflight_commit batch seq).get? k).map Prod.fst =
        some BUS1_HANDLE_INVALID ↔
      h.nodeTs % 2 = 0 ∧ h.nodeTs ≠ 0 ∧ h.nodeTs ≤ seq) ∧
    (¬ (h.nodeTs % 2 = 0 ∧ h.nodeTs ≠ 0 ∧ h.nodeTs ≤ seq) →
      ((bus1_handle_inflight_commit batch seq).get? k).map Prod.fst =
        some h.id) := by
  have hg : (bus1_handle_inflight_commit batch seq).get? k =
      some ((bus1_handle_get_inorder_id h seq,
        some (bus1_handle_release_to_inflight h seq).2)) := by
    unfold bus1_handle_inflight_commit
    rw [List.get?_eq_getElem?, List.getElem?_map]
    rw [← List.get?_eq_getElem?, hk]
    simp [release_to_inflight_fst]
  rw [hg]
  unfold bus1_handle_get_inorder_id
  by_cases hc : 0 < h.nodeTs ∧ h.nodeTs % 2 = 0 ∧ h.nodeTs ≤ seq
  · rw [if_pos hc]
    simp only [Option.map_some']
    refine ⟨⟨fun _ => ⟨hc.2.1, by omega, hc.2.2⟩, fun _ => trivial⟩, ?_⟩
    intro hnc
    exact absurd ⟨hc.2.1, by omega, hc.2.2⟩ hnc
  · rw [if_neg hc]
    simp only [Option.map_some']
    refine ⟨⟨?_, ?_⟩, fun _ => trivial⟩
    · intro he
      exact absurd (Option.some_inj.mp he) hid
    · intro hp
      exact absurd ⟨Nat.pos_of_ne_zero hp.2.1, hp.1, hp.2.2⟩ hc

/-- C1 witness: a handle with id 10 on a node destroyed at timestamp 4,
committed at seq 6, reports INVALID; committed at seq 2, it reports its id. -/
theorem claim_C1_witness :
    ((bus1_handle_inflight_commit [some ⟨7, 10, 4, 1, 1, 0, false, true⟩]
        6).get? 0).map Prod.fst = some BUS1_HANDLE_INVALID ∧
    ((bus1_handle_inflight_commit [some ⟨7, 10, 4, 1, 1, 0, false, true⟩]
        2).get? 0).map Prod.fst = some 10 := by
  constructor
  · exact (claim_C1 [some ⟨7, 10, 4, 1, 1, 0, false, true⟩] 6 0
      ⟨7, 10, 4, 1, 1, 0, false, true⟩ rfl (by decide)).1.mpr (by decide)
  · exact (claim_C1 [some ⟨7, 10, 4, 1, 1, 0, false, true⟩] 2 0
      ⟨7, 10, 4, 1, 1, 0, false, true⟩ rfl (by decide)).2 (by decide)

/-!
Handle counter state machine, for the `n_user` / `n_inflight` invariant.

A state is the handle together with a ghost count `held` of inflight
references currently held by kernel contexts (acquired and not yet released).
Operations whose C contract requires the caller to hold an acquired inflight
reference (`bus1_handle_release`, releasing into `bus1_handle_inflight_commit`
via `bus1_handle_release_to_inflight`) are only enabled when `held ≥ 1`;
everything else mirrors the code.
-/

/-- One operation on a public handle. -/
inductive HOp where
  | acquire
  | release
  | releaseToInflight (timestamp : Nat)
  | releaseById
deriving Repr, DecidableEq

/-- Apply one operation to (handle, held); `none` marks a call the caller
contract forbids (releasing a reference that is not held). -/
def hstep (s : Handle × Nat) : HOp → Option (Handle × Nat)
  | .acquire =>
    match bus1_handle_acquire s.1 with
    | some h' => some (h', s.2 + 1)
    | none => some s  -- failed acquire leaves the handle untouched
  | .release =>
    if s.2 = 0 then none
    else some (bus1_handle_release s.1, s.2 - 1)
  | .releaseToInflight ts =>
    if s.2 = 0 then none
    else some ((bus1_handle_release_to_inflight s.1 ts).2, s.2 - 1)
  | .releaseById =>
    -- the n_user path of bus1_handle_release_by_id: atomic_dec_if_positive,
    -- releasing the backing inflight reference when n_user drops to 0
    if s.1.n_user ≤ 0 then some s  -- -ESTALE: nothing changes
    else
      let h1 := {s.1 with n_user := s.1.n_user - 1}
      if h1.n_user = 0 then some (bus1_handle_release h1, s.2)
      else some (h1, s.2)

/-- The state of a handle right after `bus1_handle_attach_unlocked`:
`n_inflight = 1` (the attach acquires the handle for the caller),
`n_user = 0`. -/
def hattach (node id nodeTs : Nat) (own : Bool) : Handle × Nat :=
  (⟨node, id, nodeTs, 1, 1, 0, own, true⟩, 1)

/-- Run a sequence of operations from an initial state. -/
def hrun (s : Handle × Nat) (ops : List HOp) : Option (Handle × Nat) :=
  ops.foldlM hstep s

/-- The real counter invariant: `n_inflight` equals the held references plus
one backing reference shared by all user references (when any exist). -/
def HInv (s : Handle × Nat) : Prop :=
  s.1.n_inflight = (s.2 : Int) + (if 0 < s.1.n_user then 1 else 0) ∧
    0 ≤ s.1.n_user

theorem hstep_inv {s s' : Handle × Nat} {op : HOp} (hi : HInv s)
    (hs : hstep s op = some s') : HInv s' := by
  obtain ⟨h1, h2⟩ := hi
  have hpub : bus1_handle_is_public s.1 = true := by
    simp only [bus1_handle_is_public, decide_eq_true_eq]
    rw [h1]
    split <;> omega
  cases op with
  | acquire =>
    simp only [hstep] at hs
    rcases s with ⟨h, held⟩
    simp only at h1 h2
    by_cases hz : h.n_inflight ≠ 0
    · simp only [bus1_handle_acquire, hpub, Bool.not_true, if_neg, hz,
        if_pos, if_true, Option.some_inj] at hs
      rw [if_pos hz] at hs
      cases hs
      constructor
      · simp only
        push_cast
        rw [h1]
        ring
      · exact h2
    · push_neg at hz
      by_cases ho : h.isOwner
      · simp only [bus1_handle_acquire, hpub, Bool.not_true] at hs
        rw [if_neg (by simp), if_neg (by simpa using hz), if_pos ho] at hs
        simp only [Option.some_inj] at hs
        cases hs
        constructor
        · simp only
          push_cast
          rw [h1]
          ring
        · exact h2
      · simp only [bus1_handle_acquire, hpub, Bool.not_true] at hs
        rw [if_neg (by simp), if_neg (by simpa using hz), if_neg ho] at hs
        simp only [Option.some_inj] at hs
        cases hs
        exact ⟨h1, h2⟩
  | release =>
    simp only [hstep] at hs
    rcases s with ⟨h, held⟩
    simp only at h1 h2
    by_cases hz : held = 0
    · simp [hz] at hs
    · rw [if_neg hz] at hs
      simp only [Option.some_inj] at hs
      cases hs
      simp only [bus1_handle_release, hpub, Bool.not_true, if_neg]
      rw [if_neg (by simp)]
      constructor
      · simp only
        rw [h1]
        have : (1 : Int) ≤ held := by exact_mod_cast Nat.one_le_iff_ne_zero.mpr hz
        omega
      · exact h2
  | releaseToInflight ts =>
    simp only [hstep] at hs
    rcases s with ⟨h, held⟩
    simp only at h1 h2
    by_cases hz : held = 0
    · simp [hz] at hs
    · rw [if_neg hz] at hs
      simp only [Option.some_inj] at hs
      cases hs
      have hheld : (1 : Int) ≤ held := by
        exact_mod_cast Nat.one_le_iff_ne_zero.mpr hz
      unfold bus1_handle_release_to_inflight
      by_cases hc : bus1_handle_get_inorder_id h ts = BUS1_HANDLE_INVALID
      · rw [if_pos hc]
        simp only [bus1_handle_release, hpub, Bool.not_true]
        rw [if_neg (by simp)]
        refine ⟨?_, h2⟩
        simp only
        omega
      · rw [if_neg hc]
        by_cases hu : h.n_user + 1 ≠ 1
        · rw [if_pos (by simpa using hu)]
          simp only [bus1_handle_release, bus1_handle_is_public] at hpub ⊢
          rw [if_neg (by simpa using hpub)]
          refine ⟨?_, by simp only; omega⟩
          simp only
          have hu' : 0 < h.n_user := by omega
          rw [if_pos hu'] at h1
          have : 0 < h.n_user + 1 := by omega
          rw [if_pos this]
          omega
        · rw [if_neg (by simpa using hu)]
          push_neg at hu
          refine ⟨?_, by simp only; omega⟩
          simp only
          have hu0 : h.n_user = 0 := by omega
          rw [if_pos (by omega : (0 : Int) < h.n_user + 1)]
          rw [hu0, if_neg (by omega)] at h1
          omega
  | releaseById =>
    simp only [hstep] at hs
    rcases s with ⟨h, held⟩
    simp only at h1 h2
    by_cases hz : h.n_user ≤ 0
    · rw [if_pos hz] at hs
      simp only [Option.some_inj] at hs
      cases hs
      exact ⟨h1, h2⟩
    · rw [if_neg hz] at hs
      push_neg at hz
      by_cases hu : h.n_user - 1 = 0
      · rw [if_pos (by simpa using hu)] at hs
        simp only [Option.some_inj] at hs
        cases hs
        simp only [bus1_handle_release, bus1_handle_is_public] at hpub ⊢
        rw [if_neg (by simpa using hpub)]
        refine ⟨?_, by simp only; omega⟩
        simp only
        rw [if_pos hz] at h1
        rw [hu, if_neg (by omega)]
        omega
      · rw [if_neg (by simpa using hu)] at hs
        simp only [Option.some_inj] at hs
        cases hs
        refine ⟨?_, by simp only; omega⟩
        simp only
        rw [if_pos hz] at h1
        rw [if_pos (by omega : (0 : Int) < h.n_user - 1)]
        omega

theorem hrun_inv {s s' : Handle × Nat} {ops : List HOp} (hi : HInv s)
    (hr : hrun s ops = some s') : HInv s' := by
  induction ops generalizing s with
  | nil =>
    simp only [hrun, List.foldlM_nil, Option.some_inj] at hr
    cases hr
    exact hi
  | cons op rest ih =>
    simp only [hrun, List.foldlM_cons] at hr
    cases hm : hstep s op with
    | none => rw [hm] at hr; simp at hr
    | some s1 =>
      rw [hm] at hr
      exact ih (hstep_inv hi hm) hr

/-- C2 (amended): for every public handle, after any sequence of acquire,
release, release-to-inflight (inflight commit) and release-by-id operations
that respects the callers' reference contract, the counters satisfy
`0 ≤ n_user`, `0 ≤ n_inflight`, and `n_inflight = 0 → n_user = 0`: every user
reference is collectively backed by one inflight reference, not individually,
so `n_user ≤ n_inflight` need not hold. -/
theorem claim_C2 (node id nodeTs : Nat) (own : Bool) (ops : List HOp)
    (s : Handle × Nat) (hr : hrun (hattach node id nodeTs own) ops = some s) :
    0 ≤ s.1.n_user ∧ 0 ≤ s.1.n_inflight ∧
      (s.1.n_inflight = 0 → s.1.n_user = 0) := by
  have hi0 : HInv (hattach node id nodeTs own) := by
    constructor <;> simp [hattach]
  have hi := hrun_inv hi0 hr
  obtain ⟨h1, h2⟩ := hi
  refine ⟨h2, ?_, ?_⟩
  · rw [h1]; split <;> omega
  · intro hz
    rw [hz] at h1
    by_contra hne
    have : 0 < s.1.n_user := by omega
    rw [if_pos this] at h1
    omega

/-- C2 witness: the amended invariant holds after a concrete run that ends
with two user references backed by a single inflight reference. -/
theorem claim_C2_witness :
    0 ≤ ((⟨7, 5, 0, 1, 1, 2, false, true⟩ : Handle), 0).1.n_user ∧
    0 ≤ ((⟨7, 5, 0, 1, 1, 2, false, true⟩ : Handle), 0).1.n_inflight ∧
    (((⟨7, 5, 0, 1, 1, 2, false, true⟩ : Handle), 0).1.n_inflight = 0 →
      ((⟨7, 5, 0, 1, 1, 2, false, true⟩ : Handle), 0).1.n_user = 0) :=
  claim_C2 7 5 0 false
    [.releaseToInflight 0, .acquire, .releaseToInflight 0]
    ((⟨7, 5, 0, 1, 1, 2, false, true⟩ : Handle), 0) (by decide)

/-- C2 counterexample: from a freshly attached handle, converting the inflight
reference to a user reference, acquiring again, and converting again — the
exact sequence a peer receiving the same node in two transactions performs —
reaches `n_user = 2` with `n_inflight = 1`, so `n_user ≤ n_inflight` fails. -/
theorem claim_C2_counterexample :
    hrun (hattach 7 5 0 false)
        [.releaseToInflight 0, .acquire, .releaseToInflight 0] =
      some ((⟨7, 5, 0, 1, 1, 2, false, true⟩ : Handle), 0) ∧
    ¬ ((⟨7, 5, 0, 1, 1, 2, false, true⟩ : Handle).n_user ≤
        (⟨7, 5, 0, 1, 1, 2, false, true⟩ : Handle).n_inflight) := by
  decide

/-!
Release-by-id (src/ipc/bus1/handle.c, bus1_handle_release_by_id).

The holder peer's by-id lookup tree is embedded as an association list
`id ↦ handle`.  `bus1_handle_find_by_id` takes and later drops one object
reference; that pairing is net-neutral and elided from the state.
-/

/-- Linux error numbers used by the release path. -/
def ENXIO : Int := 6

def ESTALE : Int := 116

/-- Lookup in the by-id tree. -/
def pmfind (id : Nat) : List (Nat × Handle) → Option Handle
  | [] => none
  | (i, h) :: t => if i = id then some h else pmfind id t

/-- Replace the entry for `id`. -/
def pmset (id : Nat) (h : Handle) : List (Nat × Handle) → List (Nat × Handle)
  | [] => []
  | (i, h0) :: t => if i = id then (i, h) :: t else (i, h0) :: pmset id h t

/-- Remove the entry for `id` (the tree unlink done by the last release). -/
def pmremove (id : Nat) : List (Nat × Handle) → List (Nat × Handle)
  | [] => []
  | (i, h0) :: t => if i = id then t else (i, h0) :: pmremove id t

/-- bus1_handle_release_by_id: release one user-visible reference on the
handle with the given id.  `atomic_dec_if_positive` fails on `n_user = 0`
(-ESTALE, nothing changes); when the decrement drops `n_user` to 0 the backing
inflight reference is released via `bus1_handle_release_pinned`, unlinking the
handle from the peer when that was the last inflight reference. -/
def bus1_handle_release_by_id (m : List (Nat × Handle)) (id : Nat) :
    Int × List (Nat × Handle) :=
  match pmfind id m with
  | none => (- ENXIO, m)
  | some h =>
    if h.n_user ≤ 0 then (-ESTALE, m)
    else
      let h1 := {h with n_user := h.n_user - 1}
      if h1.n_user = 0 then
        let h2 := bus1_handle_release h1
        if h2.n_inflight = 0 then (0, pmremove id m)
        else (0, pmset id h2 m)
      else (0, pmset id h1 m)

/-- C8: releasing an id whose handle has `n_user = 0` returns -ESTALE and
leaves the peer state (every handle's counters and the lookup tree) unchanged;
repeating the call gives the same result. -/
theorem claim_C8 (m : List (Nat × Handle)) (id : Nat) (h : Handle)
    (hfind : pmfind id m = some h) (huser : h.n_user = 0) :
    bus1_handle_release_by_id m id = (-ESTALE, m) ∧
    bus1_handle_release_by_id (bus1_handle_release_by_id m id).2 id =
      (-ESTALE, m) := by
  have h0 : bus1_handle_release_by_id m id = (-ESTALE, m) := by
    unfold bus1_handle_release_by_id
    rw [hfind]
    simp [huser]
  exact ⟨h0, by rw [h0]; exact h0⟩

/-- C8 witness: a peer holding one installed handle with `n_user = 0`; both
the first and the repeated release report -ESTALE and change nothing. -/
theorem claim_C8_witness :
    bus1_handle_release_by_id [(6, ⟨7, 6, 0, 2, 1, 0, false, true⟩)] 6 =
      (-ESTALE, [(6, ⟨7, 6, 0, 2, 1, 0, false, true⟩)]) ∧
    bus1_handle_release_by_id
        (bus1_handle_release_by_id
          [(6, ⟨7, 6, 0, 2, 1, 0, false, true⟩)] 6).2 6 =
      (-ESTALE, [(6, ⟨7, 6, 0, 2, 1, 0, false, true⟩)]) :=
  claim_C8 [(6, ⟨7, 6, 0, 2, 1, 0, false, true⟩)] 6
    ⟨7, 6, 0, 2, 1, 0, false, true⟩ (by decide) (by decide)

/-!
Install (src/ipc/bus1/handle.c, bus1_handle_install_unlocked).

The holder peer is embedded as the monotonically increasing id counter
`handle_ids` plus the contents of the by-node lookup tree.
-/

/-- Peer info: id allocator and the by-node map contents. -/
structure PeerInfo where
  handle_ids : Nat
  handles : List Handle
deriving Repr, DecidableEq

/-- Lookup by node identity in the by-node tree. -/
def pnfind (nd : Nat) : List Handle → Option Handle
  | [] => none
  | h :: t => if h.node = nd then some h else pnfind nd t

/-- Replace the entry for node `nd`. -/
def pnset (nd : Nat) (h' : Handle) : List Handle → List Handle
  | [] => []
  | h :: t => if h.node = nd then h' :: t else h :: pnset nd h' t

/-- Number of handles for node `nd` held by the peer. -/
def pncount (nd : Nat) (l : List Handle) : Nat :=
  (l.filter fun h => h.node == nd).length

/-- bus1_handle_install_unlocked: allocate an id and link the handle into the
holder's trees, or, on conflict, return the already-installed handle for the
same node with a fresh object reference and a fresh inflight reference
acquired on it, leaving the argument untouched. -/
def bus1_handle_install_unlocked (p : PeerInfo) (h : Handle) :
    PeerInfo × Option Handle :=
  if ¬ bus1_handle_is_public h then (p, none)  -- WARN_ON(!public): NULL
  else if h.id ≠ BUS1_HANDLE_INVALID then (p, some h)  -- WARN_ON: bail out
  else if ¬ h.holderSet then (p, none)  -- node destroyed since attach
  else
    match pnfind h.node p.handles with
    | some iter =>
      let c0 := {iter with ref := iter.ref + 1}    -- bus1_handle_ref(iter)
      let c := (bus1_handle_acquire c0).getD c0    -- WARN_ON(!acquire)
      ({p with handles := pnset h.node c p.handles}, some c)
    | none =>
      let ids := (p.handle_ids + 1) % 2 ^ 64       -- ++peer_info->handle_ids
      let h1 := {h with
        ref := h.ref + 1  -- peer owns a reference until unlinked
        id := ids * 4 % 2 ^ 64 + BUS1_NODE_FLAG_MANAGED}
      ({p with handle_ids := ids, handles := p.handles ++ [h1]}, some h1)

theorem pnfind_node {nd : Nat} {l : List Handle} {e : Handle}
    (h : pnfind nd l = some e) : e.node = nd := by
  induction l with
  | nil => simp [pnfind] at h
  | cons a t ih =>
    by_cases ha : a.node = nd
    · simp only [pnfind, if_pos ha, Option.some_inj] at h
      rw [← h]; exact ha
    · simp only [pnfind, if_neg ha] at h
      exact ih h

theorem pnfind_none_pncount {nd : Nat} {l : List Handle}
    (h : pnfind nd l = none) : pncount nd l = 0 := by
  induction l with
  | nil => rfl
  | cons a t ih =>
    by_cases ha : a.node = nd
    · simp [pnfind, ha] at h
    · simp only [pnfind, if_neg ha] at h
      simpa [pncount, List.filter_cons, ha] using ih h

theorem pnfind_append_last {nd : Nat} {l : List Handle} {g : Handle}
    (h : pnfind nd l = none) (hg : g.node = nd) :
    pnfind nd (l ++ [g]) = some g := by
  induction l with
  | nil => simp [pnfind, hg]
  | cons a t ih =>
    by_cases ha : a.node = nd
    · simp [pnfind, ha] at h
    · simp only [pnfind, if_neg ha] at h
      simpa [pnfind, ha] using ih h

theorem pncount_append (nd : Nat) (l : List Handle) (g : Handle) :
    pncount nd (l ++ [g]) =
      pncount nd l + (if g.node = nd then 1 else 0) := by
  by_cases hg : g.node = nd <;>
    simp [pncount, List.filter_append, List.filter_cons, hg]

theorem pncount_pnset {nd : Nat} {l : List Handle} {e h' : Handle}
    (hm : pnfind nd l = some e) (hn : h'.node = nd) :
    pncount nd (pnset nd h' l) = pncount nd l := by
  induction l with
  | nil => simp [pnfind] at hm
  | cons a t ih =>
    by_cases ha : a.node = nd
    · simp [pnset, ha, pncount, List.filter_cons, hn]
    · simp only [pnfind, if_neg ha] at hm
      simp only [pnset, if_neg ha]
      simpa [pncount, List.filter_cons, ha] using ih hm

/-- C9: installing a public, not-yet-installed handle whose holder already has
an installed handle for the same node returns that existing handle with one
more object reference and one more inflight reference, leaves the id
allocator and the argument handle untouched, and does not grow the peer's
handle set; consequently, installing two fresh handles for the same node into
one peer lets exactly one install succeed (the second returns the first,
re-referenced) and leaves the peer with a single handle for that node. -/
theorem claim_C9 :
    (∀ (p : PeerInfo) (h e : Handle),
      pnfind h.node p.handles = some e → 1 ≤ e.n_inflight →
      h.id = BUS1_HANDLE_INVALID → 0 ≤ h.n_inflight → h.holderSet = true →
      (bus1_handle_install_unlocked p h).2 =
        some {e with ref := e.ref + 1, n_inflight := e.n_inflight + 1} ∧
      (bus1_handle_install_unlocked p h).1.handle_ids = p.handle_ids ∧
      (bus1_handle_install_unlocked p h).1.handles =
        pnset h.node {e with
          ref := e.ref + 1
          n_inflight := e.n_inflight + 1} p.handles ∧
      pncount h.node (bus1_handle_install_unlocked p h).1.handles =
        pncount h.node p.handles) ∧
    (∀ (p : PeerInfo) (nd : Nat) (h1 h2 : Handle),
      pnfind nd p.handles = none → h1.node = nd → h2.node = nd →
      h1.id = BUS1_HANDLE_INVALID → h2.id = BUS1_HANDLE_INVALID →
      1 ≤ h1.n_inflight → 0 ≤ h2.n_inflight →
      h1.holderSet = true → h2.holderSet = true →
      ∃ g, (bus1_handle_install_unlocked p h1).2 = some g ∧
        g.id ≠ BUS1_HANDLE_INVALID ∧
        (bus1_handle_install_unlocked
            (bus1_handle_install_unlocked p h1).1 h2).2 =
          some {g with ref := g.ref + 1, n_inflight := g.n_inflight + 1} ∧
        pncount nd (bus1_handle_install_unlocked
            (bus1_handle_install_unlocked p h1).1 h2).1.handles = 1) := by
  have hconf : ∀ (p : PeerInfo) (h e : Handle),
      pnfind h.node p.handles = some e → 1 ≤ e.n_inflight →
      h.id = BUS1_HANDLE_INVALID → 0 ≤ h.n_inflight → h.holderSet = true →
      bus1_handle_install_unlocked p h =
        ({p with handles := pnset h.node {e with
            ref := e.ref + 1
            n_inflight := e.n_inflight + 1} p.handles},
         some {e with ref := e.ref + 1, n_inflight := e.n_inflight + 1}) := by
    intro p h e hfind hein hid hpub hhold
    have hacq : bus1_handle_acquire {e with ref := e.ref + 1} =
        some {e with ref := e.ref + 1, n_inflight := e.n_inflight + 1} := by
      have h0 : (0 : Int) ≤ e.n_inflight := by omega
      have h1 : e.n_inflight ≠ 0 := by omega
      simp [bus1_handle_acquire, bus1_handle_is_public, h0, h1]
    unfold bus1_handle_install_unlocked
    rw [if_neg (by simp [bus1_handle_is_public]; omega)]
    rw [if_neg (by simpa using hid)]
    rw [if_neg (by simpa using hhold)]
    rw [hfind]
    simp only [hacq, Option.getD_some]
  constructor
  · intro p h e hfind hein hid hpub hhold
    have hc := hconf p h e hfind hein hid hpub hhold
    rw [hc]
    have hnode : e.node = h.node := pnfind_node hfind
    exact ⟨rfl, rfl, rfl, pncount_pnset hfind (by simpa using hnode)⟩
  · intro p nd h1 h2 hnone hn1 hn2 hid1 hid2 hin1 hin2 hh1 hh2
    -- first install: no conflict, fresh id
    have hfst : bus1_handle_install_unlocked p h1 =
        ({p with
           handle_ids := (p.handle_ids + 1) % 2 ^ 64
           handles := p.handles ++ [{h1 with
             ref := h1.ref + 1
             id := (p.handle_ids + 1) % 2 ^ 64 * 4 % 2 ^ 64 +
               BUS1_NODE_FLAG_MANAGED}]},
         some {h1 with
           ref := h1.ref + 1
           id := (p.handle_ids + 1) % 2 ^ 64 * 4 % 2 ^ 64 +
             BUS1_NODE_FLAG_MANAGED}) := by
      unfold bus1_handle_install_unlocked
      rw [if_neg (by simp [bus1_handle_is_public]; omega)]
      rw [if_neg (by simpa using hid1)]
      rw [if_neg (by simpa using hh1)]
      rw [hn1, hnone]
    set g : Handle := {h1 with
      ref := h1.ref + 1
      id := (p.handle_ids + 1) % 2 ^ 64 * 4 % 2 ^ 64 +
        BUS1_NODE_FLAG_MANAGED} with hgdef
    have hgid : g.id ≠ BUS1_HANDLE_INVALID := by
      simp only [hgdef, BUS1_NODE_FLAG_MANAGED, BUS1_HANDLE_INVALID]
      omega
    have hgfind : pnfind h2.node (p.handles ++ [g]) = some g := by
      rw [hn2]
      exact pnfind_append_last hnone (by simpa [hgdef] using hn1)
    have hsnd := hconf ⟨(p.handle_ids + 1) % 2 ^ 64, p.handles ++ [g]⟩ h2 g
      hgfind (by simpa [hgdef] using hin1) hid2 hin2 hh2
    refine ⟨g, by rw [hfst], hgid, ?_, ?_⟩
    · rw [hfst]
      rw [hsnd]
    · rw [hfst]
      rw [hsnd]
      have hcount : pncount nd (p.handles ++ [g]) = 1 := by
        rw [pncount_append, pnfind_none_pncount hnone]
        simp [hgdef, hn1]
      calc pncount nd (pnset h2.node {g with
            ref := g.ref + 1
            n_inflight := g.n_inflight + 1} (p.handles ++ [g])) =
          pncount nd (p.handles ++ [g]) := by
            rw [hn2]
            exact pncount_pnset (by rw [← hn2]; exact hgfind)
              (by simpa [hgdef] using hn1)
        _ = 1 := hcount

/-- C9 witness: applying the conflict law at a concrete peer that already
holds an installed handle for node 7, and the double-install law at a fresh
peer. -/
theorem claim_C9_witness :
    (bus1_handle_install_unlocked
        ⟨3, [⟨7, 14, 0, 1, 1, 0, false, true⟩]⟩
        ⟨7, BUS1_HANDLE_INVALID, 0, 1, 1, 0, false, true⟩).2 =
      some ⟨7, 14, 0, 2, 2, 0, false, true⟩ ∧
    (∃ g, (bus1_handle_install_unlocked ⟨0, []⟩
        ⟨7, BUS1_HANDLE_INVALID, 0, 1, 1, 0, false, true⟩).2 = some g ∧
      g.id ≠ BUS1_HANDLE_INVALID ∧
      (bus1_handle_install_unlocked
          (bus1_handle_install_unlocked ⟨0, []⟩
            ⟨7, BUS1_HANDLE_INVALID, 0, 1, 1, 0, false, true⟩).1
          ⟨7, BUS1_HANDLE_INVALID, 0, 1, 1, 0, false, true⟩).2 =
        some {g with ref := g.ref + 1, n_inflight := g.n_inflight + 1} ∧
      pncount 7 (bus1_handle_install_unlocked
          (bus1_handle_install_unlocked ⟨0, []⟩
            ⟨7, BUS1_HANDLE_INVALID, 0, 1, 1, 0, false, true⟩).1
          ⟨7, BUS1_HANDLE_INVALID, 0, 1, 1, 0, false, true⟩).1.handles = 1) := by
  constructor
  · exact (claim_C9.1 ⟨3, [⟨7, 14, 0, 1, 1, 0, false, true⟩]⟩
      ⟨7, BUS1_HANDLE_INVALID, 0, 1, 1, 0, false, true⟩
      ⟨7, 14, 0, 1, 1, 0, false, true⟩
      (by decide) (by decide) rfl (by decide) rfl).1
  · exact claim_C9.2 ⟨0, []⟩ 7
      ⟨7, BUS1_HANDLE_INVALID, 0, 1, 1, 0, false, true⟩
      ⟨7, BUS1_HANDLE_INVALID, 0, 1, 1, 0, false, true⟩
      rfl rfl rfl rfl rfl (by decide) (by decide) rfl rfl

/-!
Quota (src/ipc/bus1/user.c).

`UserBudget` are the per-user atomic remaining budgets (`user->n_messages`
etc.), `PeerLocal` the per-peer remaining budgets (`peer_info->n_*`),
`UserStats` the per-(peer,user) consumed shares (`stats->n_*`).  All counters
count *remaining* units except the stats, which count consumed units.
-/

/-- Per-user global remaining budgets. -/
structure UserBudget where
  n_messages : Nat
  n_handles : Nat
  n_fds : Nat
deriving Repr, DecidableEq

/-- Per-peer local remaining budgets. -/
structure PeerLocal where
  n_allocated : Nat
  n_messages : Nat
  n_handles : Nat
  n_fds : Nat
deriving Repr, DecidableEq

/-- Per-(peer,user) consumed shares. -/
structure UserStats where
  n_allocated : Nat
  n_messages : Nat
  n_handles : Nat
  n_fds : Nat
deriving Repr, DecidableEq

/-- The quota-relevant state of one (peer, user) pair. -/
structure QuotaCtx where
  user : UserBudget
  peer : PeerLocal
  stats : UserStats
deriving Repr, DecidableEq

def EDQUOT : Int := 122

/-- Modelled from the spec: `bus1_atomic_sub_if_ge` (util.h is not among the
sources) — atomically subtract `sub` from the counter iff its current value is
at least `t`, reporting whether the subtraction happened. -/
def bus1_atomic_sub_if_ge (a sub t : Nat) : Option Nat :=
  if t ≤ a then some (a - sub) else none

/-- bus1_user_quota_charge_one: check one resource.  On success returns the
updated global counter (the local counter is charged later by the caller);
`none` is -EDQUOT. -/
def bus1_user_quota_charge_one (global : Option Nat) (loc share charge : Nat) :
    Option (Option Nat) :=
  if loc < charge ∨ loc - charge < share + charge then none
  else
    match global with
    | none => some none
    | some g =>
      match bus1_atomic_sub_if_ge g charge (share + charge * 2) with
      | some g' => some (some g')
      | none => none

/-- bus1_user_quota_charge: charge one message of `size` bytes carrying
`n_handles` handles and `n_fds` file descriptors.  On failure the already
applied global charges are rolled back (error_handles / error_messages paths)
and -EDQUOT is returned with the context unchanged; on success locals are
decremented and stats incremented. -/
def bus1_user_quota_charge (c : QuotaCtx) (size n_handles n_fds : Nat) :
    Int × QuotaCtx :=
  match bus1_user_quota_charge_one none c.peer.n_allocated
      c.stats.n_allocated size with
  | none => (-EDQUOT, c)
  | some _ =>
    match bus1_user_quota_charge_one (some c.user.n_messages)
        c.peer.n_messages c.stats.n_messages 1 with
    | none => (-EDQUOT, c)  -- error_allocated: size has no global counter
    | some om =>
      let um := om.getD c.user.n_messages
      match bus1_user_quota_charge_one (some c.user.n_handles)
          c.peer.n_handles c.stats.n_handles n_handles with
      | none =>  -- error_messages: atomic_inc(&user->n_messages)
        (-EDQUOT, {c with user := {c.user with n_messages := um + 1}})
      | some oh =>
        let uh := oh.getD c.user.n_handles
        match bus1_user_quota_charge_one (some c.user.n_fds) c.peer.n_fds
            c.stats.n_fds n_fds with
        | none =>  -- error_handles, then error_messages
          (-EDQUOT, {c with user := {c.user with
              n_messages := um + 1
              n_handles := uh + n_handles}})
        | some ofd =>
          let uf := ofd.getD c.user.n_fds
          (0, { user := ⟨um, uh, uf⟩,
                peer := ⟨c.peer.n_allocated - size, c.peer.n_messages - 1,
                  c.peer.n_handles - n_handles, c.peer.n_fds - n_fds⟩,
                stats := ⟨c.stats.n_allocated + size, c.stats.n_messages + 1,
                  c.stats.n_handles + n_handles, c.stats.n_fds + n_fds⟩ })

theorem charge_one_none (loc share charge : Nat) :
    bus1_user_quota_charge_one none loc share charge =
      if share + 2 * charge ≤ loc then some none else none := by
  unfold bus1_user_quota_charge_one
  by_cases h : share + 2 * charge ≤ loc
  · rw [if_pos h, if_neg (by omega)]
  · rw [if_neg h, if_pos (by omega)]

theorem charge_one_some (g loc share charge : Nat) :
    bus1_user_quota_charge_one (some g) loc share charge =
      if share + 2 * charge ≤ loc ∧ share + 2 * charge ≤ g then
        some (some (g - charge))
      else none := by
  simp only [bus1_user_quota_charge_one, bus1_atomic_sub_if_ge]
  by_cases hl : share + 2 * charge ≤ loc
  · rw [if_neg (show ¬ (loc < charge ∨ loc - charge < share + charge) by
      omega)]
    by_cases hg : share + charge * 2 ≤ g
    · rw [if_pos hg,
        if_pos (show share + 2 * charge ≤ loc ∧ share + 2 * charge ≤ g from
          ⟨hl, by omega⟩)]
    · rw [if_neg hg,
        if_neg (show ¬ (share + 2 * charge ≤ loc ∧ share + 2 * charge ≤ g) by
          rintro ⟨-, h⟩; omega)]
  · rw [if_pos (show loc < charge ∨ loc - charge < share + charge by omega),
      if_neg (show ¬ (share + 2 * charge ≤ loc ∧ share + 2 * charge ≤ g) by
        rintro ⟨h, -⟩; omega)]

/-- C7: a quota charge succeeds iff every charged resource respects the
half-of-remaining rule — `remaining ≥ share + 2·charge` — on the per-peer
local budget for size, messages, handles and fds, and on the per-user global
budget for messages, handles and fds (size has no global budget); and whenever
the charge fails with -EDQUOT, the whole quota state (local, global and stats
counters) is left unchanged. -/
theorem claim_C7 (c : QuotaCtx) (size n_handles n_fds : Nat) :
    ((bus1_user_quota_charge c size n_handles n_fds).1 = 0 ↔
      (c.stats.n_allocated + 2 * size ≤ c.peer.n_allocated ∧
       c.stats.n_messages + 2 * 1 ≤ c.peer.n_messages ∧
       c.stats.n_handles + 2 * n_handles ≤ c.peer.n_handles ∧
       c.stats.n_fds + 2 * n_fds ≤ c.peer.n_fds ∧
       c.stats.n_messages + 2 * 1 ≤ c.user.n_messages ∧
       c.stats.n_handles + 2 * n_handles ≤ c.user.n_handles ∧
       c.stats.n_fds + 2 * n_fds ≤ c.user.n_fds)) ∧
    ((bus1_user_quota_charge c size n_handles n_fds).1 ≠ 0 →
      (bus1_user_quota_charge c size n_handles n_fds).2 = c) := by
  obtain ⟨⟨um, uh, uf⟩, ⟨pa, pm, ph, pf⟩, ⟨sa, sm, sh, sf⟩⟩ := c
  unfold bus1_user_quota_charge
  rw [charge_one_none, charge_one_some, charge_one_some, charge_one_some]
  simp only
  by_cases h1 : sa + 2 * size ≤ pa
  case neg =>
    rw [if_neg h1]
    simp only [neg_neg, EDQUOT]
    constructor
    · constructor
      · intro h; omega
      · intro h; exact absurd h.1 h1
    · intro _; trivial
  rw [if_pos h1]
  by_cases h2 : sm + 2 * 1 ≤ pm ∧ sm + 2 * 1 ≤ um
  case neg =>
    rw [if_neg h2]
    simp only [EDQUOT]
    constructor
    · constructor
      · intro h; omega
      · intro h; exact absurd ⟨h.2.1, h.2.2.2.2.1⟩ h2
    · intro _; trivial
  rw [if_pos h2]
  by_cases h3 : sh + 2 * n_handles ≤ ph ∧ sh + 2 * n_handles ≤ uh
  case neg =>
    rw [if_neg h3]
    simp only [EDQUOT]
    constructor
    · constructor
      · intro h; omega
      · intro h; exact absurd ⟨h.2.2.1, h.2.2.2.2.2.1⟩ h3
    · intro _
      simp only [Option.getD_some]
      have : um - 1 + 1 = um := by omega
      rw [this]
  rw [if_pos h3]
  by_cases h4 : sf + 2 * n_fds ≤ pf ∧ sf + 2 * n_fds ≤ uf
  case neg =>
    rw [if_neg h4]
    simp only [EDQUOT]
    constructor
    · constructor
      · intro h; omega
      · intro h; exact absurd ⟨h.2.2.2.1, h.2.2.2.2.2.2⟩ h4
    · intro _
      simp only [Option.getD_some]
      have e1 : um - 1 + 1 = um := by omega
      have e2 : uh - n_handles + n_handles = uh := by omega
      rw [e1, e2]
  rw [if_pos h4]
  simp only [Option.getD_some]
  constructor
  · constructor
    · intro _; exact ⟨h1, h2.1, h3.1, h4.1, h2.2, h3.2, h4.2⟩
    · intro _; trivial
  · intro h; exact absurd rfl h

/-- C7 witness: a context in which only the fd budget is short; the charge
fails and the state is returned unchanged, and a context with ample budgets
in which the charge succeeds. -/
theorem claim_C7_witness :
    ((bus1_user_quota_charge ⟨⟨100, 100, 3⟩, ⟨100, 100, 100, 100⟩,
        ⟨0, 0, 0, 0⟩⟩ 10 1 2).1 ≠ 0 ∧
      (bus1_user_quota_charge ⟨⟨100, 100, 3⟩, ⟨100, 100, 100, 100⟩,
        ⟨0, 0, 0, 0⟩⟩ 10 1 2).2 =
        ⟨⟨100, 100, 3⟩, ⟨100, 100, 100, 100⟩, ⟨0, 0, 0, 0⟩⟩) ∧
    (bus1_user_quota_charge ⟨⟨100, 100, 100⟩, ⟨100, 100, 100, 100⟩,
        ⟨0, 0, 0, 0⟩⟩ 10 1 2).1 = 0 := by
  refine ⟨⟨?_, ?_⟩, ?_⟩
  · intro hc
    have := (claim_C7 ⟨⟨100, 100, 3⟩, ⟨100, 100, 100, 100⟩,
      ⟨0, 0, 0, 0⟩⟩ 10 1 2).1.mp hc
    exact absurd this (by decide)
  · exact (claim_C7 ⟨⟨100, 100, 3⟩, ⟨100, 100, 100, 100⟩,
      ⟨0, 0, 0, 0⟩⟩ 10 1 2).2 (by decide)
  · exact (claim_C7 ⟨⟨100, 100, 100⟩, ⟨100, 100, 100, 100⟩,
      ⟨0, 0, 0, 0⟩⟩ 10 1 2).1.mpr (by decide)
